import Mathlib

/-!
Verification of the row-grouping and aggregation engine of the petl
tabular-data library (source file `petl/transform/reductions.py`).

The embedding models a table as a header (a list of field names) together
with a list of data rows, where each row is a list of cell values.  Cell
values are drawn from an inductive type `Val` covering the null marker,
integers, tuples and `Conflict` values (the frozenset subclass used by
`mergeduplicates` to report conflicting data).

The external sort collaborator and the row-group iterator
(`petl.util.base.rowgroupby`, `petl.transform.sorts.sort`) are not part of
the examined source tree; they are modelled from the specification, as
noted on the corresponding definitions.
-/

namespace Petl

/-- Cell values.  `none_` is the Python `None` null marker (the default
missing sentinel), `int` an integer, `tup` a tuple of values (also used
for whole rows passed to whole-row aggregation functions), and
`conflict` the payload of a `Conflict` (frozenset subclass) value. -/
inductive Val where
  | none_ : Val
  | int : Int → Val
  | tup : List Val → Val
  | conflict : List Val → Val
deriving Repr

mutual

def Val.deq : (a b : Val) → Decidable (a = b)
  | .none_, .none_ => isTrue rfl
  | .none_, .int _ => isFalse (by intro h; exact Val.noConfusion h)
  | .none_, .tup _ => isFalse (by intro h; exact Val.noConfusion h)
  | .none_, .conflict _ => isFalse (by intro h; exact Val.noConfusion h)
  | .int _, .none_ => isFalse (by intro h; exact Val.noConfusion h)
  | .int a, .int b =>
    match decEq a b with
    | isTrue h => isTrue (by rw [h])
    | isFalse h => isFalse (by intro he; injection he; contradiction)
  | .int _, .tup _ => isFalse (by intro h; exact Val.noConfusion h)
  | .int _, .conflict _ => isFalse (by intro h; exact Val.noConfusion h)
  | .tup _, .none_ => isFalse (by intro h; exact Val.noConfusion h)
  | .tup _, .int _ => isFalse (by intro h; exact Val.noConfusion h)
  | .tup a, .tup b =>
    match Val.deqList a b with
    | isTrue h => isTrue (by rw [h])
    | isFalse h => isFalse (by intro he; injection he; contradiction)
  | .tup _, .conflict _ => isFalse (by intro h; exact Val.noConfusion h)
  | .conflict _, .none_ => isFalse (by intro h; exact Val.noConfusion h)
  | .conflict _, .int _ => isFalse (by intro h; exact Val.noConfusion h)
  | .conflict _, .tup _ => isFalse (by intro h; exact Val.noConfusion h)
  | .conflict a, .conflict b =>
    match Val.deqList a b with
    | isTrue h => isTrue (by rw [h])
    | isFalse h => isFalse (by intro he; injection he; contradiction)

def Val.deqList : (as bs : List Val) → Decidable (as = bs)
  | [], [] => isTrue rfl
  | [], _ :: _ => isFalse (by intro h; exact List.noConfusion h)
  | _ :: _, [] => isFalse (by intro h; exact List.noConfusion h)
  | a :: as, b :: bs =>
    match Val.deq a b with
    | isTrue h =>
      match Val.deqList as bs with
      | isTrue h' => isTrue (by rw [h, h'])
      | isFalse h' => isFalse (by intro he; injection he; contradiction)
    | isFalse h => isFalse (by intro he; injection he; contradiction)

end

instance : DecidableEq Val := Val.deq

/-- Injective code of an integer into the naturals. -/
def intCode (i : Int) : Nat :=
  if 0 ≤ i then 2 * i.toNat else 2 * (-i).toNat + 1

theorem intCode_inj {a b : Int} (h : intCode a = intCode b) : a = b := by
  unfold intCode at h
  split at h <;> split at h <;> omega

mutual

/-- Injective code of a value into the naturals, used to model the opaque
total order that the external sort collaborator imposes on key values. -/
def encodeVal : Val → Nat
  | .none_ => 0
  | .int i => Nat.pair 0 (intCode i) + 1
  | .tup vs => Nat.pair 1 (encodeValList vs) + 1
  | .conflict vs => Nat.pair 2 (encodeValList vs) + 1

/-- Injective code of a list of values into the naturals. -/
def encodeValList : List Val → Nat
  | [] => 0
  | v :: vs => Nat.pair (encodeVal v) (encodeValList vs) + 1

end

theorem pair_succ_inj {a b c d : Nat}
    (h : Nat.pair a b + 1 = Nat.pair c d + 1) : a = c ∧ b = d :=
  Nat.pair_eq_pair.mp (Nat.add_right_cancel h)

mutual

theorem encodeVal_inj : ∀ a b : Val, encodeVal a = encodeVal b → a = b
  | .none_, .none_, _ => rfl
  | .none_, .int _, h => by simp [encodeVal] at h
  | .none_, .tup _, h => by simp [encodeVal] at h
  | .none_, .conflict _, h => by simp [encodeVal] at h
  | .int _, .none_, h => by simp [encodeVal] at h
  | .int a, .int b, h => by
    have := pair_succ_inj (a := 0) (b := intCode a) h
    exact congrArg Val.int (intCode_inj this.2)
  | .int _, .tup _, h => by
    have := pair_succ_inj h
    omega
  | .int _, .conflict _, h => by
    have := pair_succ_inj h
    omega
  | .tup _, .none_, h => by simp [encodeVal] at h
  | .tup _, .int _, h => by
    have := pair_succ_inj h
    omega
  | .tup a, .tup b, h => by
    have := pair_succ_inj (a := 1) (b := encodeValList a) h
    exact congrArg Val.tup (encodeValList_inj a b this.2)
  | .tup _, .conflict _, h => by
    have := pair_succ_inj h
    omega
  | .conflict _, .none_, h => by simp [encodeVal] at h
  | .conflict _, .int _, h => by
    have := pair_succ_inj h
    omega
  | .conflict _, .tup _, h => by
    have := pair_succ_inj h
    omega
  | .conflict a, .conflict b, h => by
    have := pair_succ_inj (a := 2) (b := encodeValList a) h
    exact congrArg Val.conflict (encodeValList_inj a b this.2)

theorem encodeValList_inj : ∀ as bs : List Val, encodeValList as = encodeValList bs → as = bs
  | [], [], _ => rfl
  | [], _ :: _, h => by simp [encodeValList] at h
  | _ :: _, [], h => by simp [encodeValList] at h
  | a :: as, b :: bs, h => by
    have := pair_succ_inj (a := encodeVal a) (b := encodeValList as) h
    rw [encodeVal_inj a b this.1, encodeValList_inj as bs this.2]

end

/-- Order on values induced by the injective code; this models the opaque
total key order used by the external sort collaborator. -/
def vle (a b : Val) : Prop := encodeVal a ≤ encodeVal b

instance : DecidableRel vle := fun a b => inferInstanceAs (Decidable (_ ≤ _))

instance : IsTotal Val vle := ⟨fun a b => Nat.le_total _ _⟩

instance : IsTrans Val vle := ⟨fun _ _ _ h h' => Nat.le_trans h h'⟩

instance : IsAntisymm Val vle :=
  ⟨fun a b h h' => encodeVal_inj a b (Nat.le_antisymm h h')⟩

/-- Canonical representation of a Python `set` of values: the distinct
members listed in increasing code order.  Two collections with the same
member set have the same canonical representation. -/
def normSet (l : List Val) : List Val :=
  (List.insertionSort vle l).dedup

theorem sorted_normSet (l : List Val) : List.Sorted vle (normSet l) := by
  unfold normSet
  exact List.Pairwise.sublist (List.dedup_sublist _) (List.sorted_insertionSort vle l)

theorem nodup_normSet (l : List Val) : (normSet l).Nodup := by
  unfold normSet
  exact List.nodup_dedup _

theorem mem_normSet {v : Val} {l : List Val} : v ∈ normSet l ↔ v ∈ l := by
  unfold normSet
  rw [List.mem_dedup, (List.perm_insertionSort vle l).mem_iff]

theorem toFinset_normSet (l : List Val) : (normSet l).toFinset = l.toFinset := by
  apply Finset.ext
  intro v
  rw [List.mem_toFinset, List.mem_toFinset, mem_normSet]

/-- Strictly increasing codes along a sorted duplicate-free list. -/
theorem normSet_pairwise_lt (l : List Val) :
    (normSet l).Pairwise (fun a b => encodeVal a < encodeVal b) := by
  refine ((sorted_normSet l).and (nodup_normSet l)).imp (fun hab => ?_)
  exact Nat.lt_of_le_of_ne hab.1 (fun he => hab.2 (encodeVal_inj _ _ he))

/-- The canonical set representation only depends on the member set. -/
theorem normSet_canonical {l l' : List Val} (h : l.toFinset = l'.toFinset) :
    normSet l = normSet l' := by
  have hperm : List.Perm (normSet l) (normSet l') := by
    apply List.perm_of_nodup_nodup_toFinset_eq (nodup_normSet l) (nodup_normSet l')
    rw [toFinset_normSet, toFinset_normSet, h]
  exact List.eq_of_perm_of_sorted hperm (sorted_normSet l) (sorted_normSet l')

theorem normSet_idem (l : List Val) : normSet (normSet l) = normSet l := by
  have hperm : List.Perm (normSet (normSet l)) (normSet l) := by
    apply List.perm_of_nodup_nodup_toFinset_eq (nodup_normSet _) (nodup_normSet l)
    rw [toFinset_normSet]
  exact List.eq_of_perm_of_sorted hperm (sorted_normSet _) (sorted_normSet l)

theorem length_normSet (l : List Val) : (normSet l).length = l.toFinset.card := by
  rw [← toFinset_normSet, List.toFinset_card_of_nodup (nodup_normSet l)]

/-- A data row: a list of cell values.  Rows need not have the same length
as the header. -/
abbrev Row := List Val

/-- A table: a header of field names followed by data rows. -/
structure Table where
  hdr : List String
  rows : List Row
deriving Repr, DecidableEq

/-- Key specification: a single field name, a tuple of field names
(compound key), or a callable deriving a key value from a row. -/
inductive KeySpec where
  | fld (f : String)
  | flds (fs : List String)
  | call (g : Row → Val)

/-- First index of field `f` in the header, as Python `list.index`; an
absent field maps to the header length (an out-of-range position). -/
def fieldIndex (hdr : List String) (f : String) : Nat :=
  match hdr with
  | [] => 0
  | g :: gs => if g = f then 0 else fieldIndex gs f + 1

/-- Value of `row[i]`.  Rows shorter than the header are padded with the
null marker, following the spec: "shorter rows are conceptually padded
with a missing sentinel when fields are indexed beyond their length". -/
def cellAt (row : Row) (i : Nat) : Val := row.getD i Val.none_

/-- Modelled from the spec: key extraction of the Row-Group Iterator
(`petl.util.base.rowgroupby`, not among the examined sources): the key of
a row is the value of the key field, the tuple of the key fields' values
(compound keys "compare element-wise as tuples"), or the callable's
result. -/
def keyOf (hdr : List String) (key : KeySpec) (row : Row) : Val :=
  match key with
  | .fld f => cellAt row (fieldIndex hdr f)
  | .flds fs => .tup (fs.map (fun f => cellAt row (fieldIndex hdr f)))
  | .call g => g row

/-- Modelled from the spec: the Row-Group Iterator's partition of a row
sequence into maximal contiguous runs of rows sharing an extracted key
(spec section 4.1): one `(key, group)` pair per maximal run of equal
consecutive keys, in encounter order. -/
def groupRuns {α κ : Type} [DecidableEq κ] (k : α → κ) : List α → List (κ × List α)
  | [] => []
  | x :: xs =>
    match groupRuns k xs with
    | [] => [(k x, [x])]
    | (ky, g) :: rest =>
      if k x = ky then (k x, x :: g) :: rest
      else (k x, [x]) :: (ky, g) :: rest

/-- Modelled from the spec: row grouping as used by the reducers — the
Row-Group Iterator applied to a key specification resolved against the
header. -/
def rowgroupby (hdr : List String) (key : KeySpec) (rows : List Row) :
    List (Val × List Row) :=
  groupRuns (keyOf hdr key) rows

/-- Row order used by the external sort collaborator for a key: the order
of the encoded extracted keys. -/
def rowle (hdr : List String) (key : KeySpec) (a b : Row) : Prop :=
  vle (keyOf hdr key a) (keyOf hdr key b)

instance (hdr : List String) (key : KeySpec) : DecidableRel (rowle hdr key) :=
  fun _ _ => inferInstanceAs (Decidable (_ ≤ _))

instance (hdr : List String) (key : KeySpec) : IsTotal Row (rowle hdr key) :=
  ⟨fun _ _ => Nat.le_total _ _⟩

instance (hdr : List String) (key : KeySpec) : IsTrans Row (rowle hdr key) :=
  ⟨fun _ _ _ h h' => Nat.le_trans h h'⟩

/-- Modelled from the spec: the external sort collaborator
(`petl.transform.sorts.sort`, not among the examined sources), consumed as
a black box yielding a stable, key-ordered row sequence; the opaque total
order on key values is modelled through the injective code `encodeVal`. -/
def sortByKey (hdr : List String) (key : KeySpec) (rows : List Row) : List Row :=
  List.insertionSort (rowle hdr key) rows

theorem sortByKey_perm (hdr : List String) (key : KeySpec) (rows : List Row) :
    List.Perm (sortByKey hdr key rows) rows :=
  List.perm_insertionSort _ _

theorem sortByKey_sorted (hdr : List String) (key : KeySpec) (rows : List Row) :
    List.Sorted (rowle hdr key) (sortByKey hdr key rows) :=
  List.sorted_insertionSort _ _

theorem sortByKey_eq_of_sorted {hdr : List String} {key : KeySpec} {rows : List Row}
    (h : List.Sorted (rowle hdr key) rows) : sortByKey hdr key rows = rows :=
  List.Sorted.insertionSort_eq h

theorem groupRuns_cons_of_eq_nil {α κ : Type} [DecidableEq κ] {k : α → κ} (x : α)
    {xs : List α} (h : groupRuns k xs = []) :
    groupRuns k (x :: xs) = [(k x, [x])] := by
  simp [groupRuns, h]

theorem groupRuns_cons_of_eq_cons {α κ : Type} [DecidableEq κ] {k : α → κ} (x : α)
    {xs : List α} {ky : κ} {g : List α} {rest : List (κ × List α)}
    (h : groupRuns k xs = (ky, g) :: rest) :
    groupRuns k (x :: xs) =
      if k x = ky then (k x, x :: g) :: rest
      else (k x, [x]) :: (ky, g) :: rest := by
  simp [groupRuns, h]

theorem groupRuns_cons_shape {α κ : Type} [DecidableEq κ] (k : α → κ) (x : α)
    (xs : List α) :
    ∃ g rest, groupRuns k (x :: xs) = (k x, g) :: rest ∧ x ∈ g := by
  cases h : groupRuns k xs with
  | nil =>
    exact ⟨[x], [], groupRuns_cons_of_eq_nil x h, List.mem_singleton_self x⟩
  | cons p rest =>
    obtain ⟨ky, g⟩ := p
    by_cases he : k x = ky
    · exact ⟨x :: g, rest, by rw [groupRuns_cons_of_eq_cons x h, if_pos he],
        List.mem_cons_self x g⟩
    · exact ⟨[x], (ky, g) :: rest, by rw [groupRuns_cons_of_eq_cons x h, if_neg he],
        List.mem_singleton_self x⟩

/-- Every emitted group is a nonempty run of input elements all sharing
the emitted key. -/
theorem groupRuns_mem_key {α κ : Type} [DecidableEq κ] (k : α → κ) :
    ∀ l : List α, ∀ p ∈ groupRuns k l, p.2 ≠ [] ∧ ∀ x ∈ p.2, x ∈ l ∧ k x = p.1 := by
  intro l
  induction l with
  | nil => intro p hp; simp [groupRuns] at hp
  | cons y ys ih =>
    intro p hp
    cases h : groupRuns k ys with
    | nil =>
      rw [groupRuns_cons_of_eq_nil y h, List.mem_singleton] at hp
      subst hp
      refine ⟨by simp, ?_⟩
      intro x hx
      rw [List.mem_singleton] at hx
      subst hx
      exact ⟨List.mem_cons_self _ _, rfl⟩
    | cons q rest =>
      obtain ⟨ky, g⟩ := q
      rw [h] at ih
      rw [groupRuns_cons_of_eq_cons y h] at hp
      by_cases he : k y = ky
      · rw [if_pos he] at hp
        rcases List.mem_cons.mp hp with hp | hp
        · subst hp
          refine ⟨by simp, ?_⟩
          intro x hx
          rcases List.mem_cons.mp hx with hx | hx
          · subst hx; exact ⟨List.mem_cons_self _ _, rfl⟩
          · have := (ih (ky, g) (List.mem_cons_self _ _)).2 x hx
            refine ⟨List.mem_cons_of_mem _ this.1, ?_⟩
            rw [this.2]
            exact he.symm
        · have := ih p (List.mem_cons_of_mem _ hp)
          exact ⟨this.1, fun x hx => ⟨List.mem_cons_of_mem _ (this.2 x hx).1,
            (this.2 x hx).2⟩⟩
      · rw [if_neg he] at hp
        rcases List.mem_cons.mp hp with hp | hp
        · subst hp
          refine ⟨by simp, ?_⟩
          intro x hx
          rw [List.mem_singleton] at hx
          subst hx
          exact ⟨List.mem_cons_self _ _, rfl⟩
        · have := ih p hp
          exact ⟨this.1, fun x hx => ⟨List.mem_cons_of_mem _ (this.2 x hx).1,
            (this.2 x hx).2⟩⟩

/-- Every input element lands in some emitted group. -/
theorem mem_groupRuns_of_mem {α κ : Type} [DecidableEq κ] (k : α → κ) :
    ∀ l : List α, ∀ x ∈ l, ∃ p ∈ groupRuns k l, x ∈ p.2 := by
  intro l
  induction l with
  | nil => intro x hx; simp at hx
  | cons y ys ih =>
    intro x hx
    rcases List.mem_cons.mp hx with hx | hx
    · subst hx
      obtain ⟨g, rest, hshape, hmem⟩ := groupRuns_cons_shape k x ys
      exact ⟨(k x, g), by rw [hshape]; exact List.mem_cons_self _ _, hmem⟩
    · obtain ⟨p, hp, hxp⟩ := ih x hx
      cases h : groupRuns k ys with
      | nil => rw [h] at hp; simp at hp
      | cons q rest =>
        obtain ⟨ky, g⟩ := q
        rw [h] at hp
        by_cases he : k y = ky
        · rcases List.mem_cons.mp hp with hp | hp
          · subst hp
            refine ⟨(k y, y :: g), ?_, List.mem_cons_of_mem _ hxp⟩
            rw [groupRuns_cons_of_eq_cons y h, if_pos he]
            exact List.mem_cons_self _ _
          · refine ⟨p, ?_, hxp⟩
            rw [groupRuns_cons_of_eq_cons y h, if_pos he]
            exact List.mem_cons_of_mem _ hp
        · refine ⟨p, ?_, hxp⟩
          rw [groupRuns_cons_of_eq_cons y h, if_neg he]
          exact List.mem_cons_of_mem _ hp

/-- On a key-sorted input the emitted run keys have strictly increasing
codes. -/
theorem groupRuns_chain_lt {α : Type} (k : α → Val) :
    ∀ l : List α,
      List.Sorted (fun a b => encodeVal (k a) ≤ encodeVal (k b)) l →
      List.Chain' (fun p q : Val × List α => encodeVal p.1 < encodeVal q.1)
        (groupRuns k l) := by
  intro l
  induction l with
  | nil => intro _; simp [groupRuns]
  | cons y ys ih =>
    intro hs
    have hs' := hs.of_cons
    have hrel := List.rel_of_sorted_cons hs
    cases h : groupRuns k ys with
    | nil => rw [groupRuns_cons_of_eq_nil y h]; simp
    | cons q rest =>
      obtain ⟨ky, g⟩ := q
      have ihc := ih hs'
      rw [h] at ihc
      rw [groupRuns_cons_of_eq_cons y h]
      by_cases he : k y = ky
      · rw [if_pos he]
        rw [List.chain'_cons'] at ihc ⊢
        refine ⟨?_, ihc.2⟩
        intro p hp
        have := ihc.1 p hp
        rw [he]
        exact this
      · rw [if_neg he]
        rw [List.chain'_cons]
        constructor
        · obtain ⟨hne, hmem⟩ := groupRuns_mem_key k ys (ky, g)
            (h ▸ List.mem_cons_self _ _)
          obtain ⟨z, hz⟩ := List.exists_mem_of_ne_nil g hne
          have hzk := hmem z hz
          have hle : encodeVal (k y) ≤ encodeVal (k z) := hrel z hzk.1
          rw [hzk.2] at hle
          exact Nat.lt_of_le_of_ne hle (fun hee => he (encodeVal_inj _ _ hee))
        · exact ihc

/-- When no two consecutive elements share a key, every group is a
singleton. -/
theorem groupRuns_of_chain_ne {α κ : Type} [DecidableEq κ] (k : α → κ) :
    ∀ l : List α, List.Chain' (fun a b => k a ≠ k b) l →
      groupRuns k l = l.map (fun x => (k x, [x])) := by
  intro l
  induction l with
  | nil => intro _; rfl
  | cons y ys ih =>
    intro hc
    cases ys with
    | nil => rfl
    | cons z zs =>
      have hrec := ih (List.chain'_cons.mp hc).2
      have hne : k y ≠ k z := (List.chain'_cons.mp hc).1
      rw [List.map_cons] at hrec
      rw [groupRuns_cons_of_eq_cons y hrec, if_neg hne, List.map_cons,
        List.map_cons]

/-- Key specifications accepted by `mergeduplicates`: a field name or a
tuple of field names (callable keys are not supported there). -/
def KeySpec.isField : KeySpec → Prop
  | .fld _ => True
  | .flds _ => True
  | .call _ => False

/-- The Conflict value (source class `Conflict(frozenset)`): an immutable
set of values, represented canonically so that equality is set
equality. -/
def Conflict (items : List Val) : Val := .conflict (normSet items)

/-- The key field name(s) of a key specification: `[key]` for a single
field name, `list(key)` for a tuple (source `itermergeduplicates`, output
field computation).  A callable key is outside `mergeduplicates`'s
contract and is mapped to the empty list. -/
def keyFields : KeySpec → List String
  | .fld f => [f]
  | .flds fs => fs
  | .call _ => []

/-- Leading output cells for a group key: `[k]` for a single-field key,
`list(k)` for a compound key (source `itermergeduplicates` /
`itermultiaggregate`).  For compound keys the key value is always a
tuple; the fallback case is unreachable. -/
def keyCells (key : KeySpec) (k : Val) : List Val :=
  match key, k with
  | .fld _, v => [v]
  | .flds _, .tup vs => vs
  | .flds _, v => [v]
  | .call _, v => [v]

/-- The list of values of column `i` over the rows of a group that are
present and not equal to the missing sentinel (the generator inside
`set(row[i] for row in grp if len(row) > i and row[i] != missing)`). -/
def presentVals (missing : Val) (grp : List Row) (i : Nat) : List Val :=
  (grp.filter (fun row => decide (i < row.length) && decide (cellAt row i ≠ missing))).map
    (fun row => cellAt row i)

/-- The set built by `set(row[i] for row in grp if ...)` in
`itermergeduplicates`, in canonical representation. -/
def distinctVals (missing : Val) (grp : List Row) (i : Nat) : List Val :=
  normSet (presentVals missing grp i)

/-- The same distinct-value collection as a finite set. -/
def distinctFinset (missing : Val) (grp : List Row) (i : Nat) : Finset Val :=
  (presentVals missing grp i).toFinset

/-- Merged value for one column of one group: the `normedvals`
comprehension of `itermergeduplicates` — pop the single member when the
set has one element, emit `missing` when it is empty, and wrap the
members in a `Conflict` otherwise. -/
def mergedVal (missing : Val) (grp : List Row) (i : Nat) : Val :=
  match distinctVals missing grp i with
  | [v] => v
  | [] => missing
  | vals => Conflict vals

/-- The non-key output fields of `itermergeduplicates`: every header
field not part of the key, in header order. -/
def valFields (hdr : List String) (key : KeySpec) : List String :=
  hdr.filter (fun f => decide (f ∉ keyFields key))

/-- The output fields of `itermergeduplicates`: key fields first, then
the non-key fields. -/
def mergeOutFields (hdr : List String) (key : KeySpec) : List String :=
  keyFields key ++ valFields hdr key

/-- One output row of `itermergeduplicates`: the group's key value(s)
followed by the merged value of every non-key column (resolved through
`flds.index`). -/
def mergeRow (hdr : List String) (key : KeySpec) (missing : Val)
    (p : Val × List Row) : Row :=
  keyCells key p.1 ++
    ((valFields hdr key).map (fun f => fieldIndex hdr f)).map
      (fun i => mergedVal missing p.2 i)

/-- Source `itermergeduplicates`: determine the output fields (key fields
first, then every header field not part of the key, in header order),
then for each group emit the key value(s) followed by the merged value of
every non-key column. -/
def itermergeduplicates (t : Table) (key : KeySpec) (missing : Val) : Table :=
  { hdr := mergeOutFields t.hdr key,
    rows := (rowgroupby t.hdr key t.rows).map (mergeRow t.hdr key missing) }

/-- Source `mergeduplicates` / `MergeDuplicatesView`: route the table
through the sort step unless presorted, then merge duplicate rows. -/
def mergeduplicates (t : Table) (key : KeySpec) (missing : Val)
    (presorted : Bool) : Table :=
  itermergeduplicates
    (if presorted then t else { hdr := t.hdr, rows := sortByKey t.hdr key t.rows })
    key missing

/-- What the spec demands of one merged cell: emit the missing sentinel
when no present non-missing value exists, the unique member when exactly
one distinct value exists, and a Conflict holding exactly the distinct
members when more than one exists. -/
def MergedCellOk (missing : Val) (grp : List Row) (i : Nat) (c : Val) : Prop :=
  (distinctFinset missing grp i = ∅ → c = missing) ∧
  (∀ v, distinctFinset missing grp i = {v} → c = v) ∧
  (1 < (distinctFinset missing grp i).card →
    ∃ L, c = .conflict L ∧ L.Nodup ∧ 2 ≤ L.length ∧
      L.toFinset = distinctFinset missing grp i)

theorem toFinset_distinctVals (missing : Val) (grp : List Row) (i : Nat) :
    (distinctVals missing grp i).toFinset = distinctFinset missing grp i :=
  toFinset_normSet _

theorem length_distinctVals (missing : Val) (grp : List Row) (i : Nat) :
    (distinctVals missing grp i).length = (distinctFinset missing grp i).card :=
  length_normSet _

/-- The merged value of every column of every group satisfies the spec's
cell contract. -/
theorem mergedVal_ok (missing : Val) (grp : List Row) (i : Nat) :
    MergedCellOk missing grp i (mergedVal missing grp i) := by
  have hlen := length_distinctVals missing grp i
  have htf := toFinset_distinctVals missing grp i
  have hnd : (distinctVals missing grp i).Nodup := nodup_normSet _
  cases hd : distinctVals missing grp i with
  | nil =>
    have hS : distinctFinset missing grp i = ∅ := by rw [← htf, hd]; rfl
    have hc : mergedVal missing grp i = missing := by unfold mergedVal; rw [hd]
    rw [hc]
    refine ⟨fun _ => rfl, ?_, ?_⟩
    · intro v hv
      rw [hS] at hv
      exact absurd hv.symm (Finset.singleton_ne_empty v)
    · intro h1
      rw [hS] at h1
      simp at h1
  | cons v vs =>
    cases vs with
    | nil =>
      have hS : distinctFinset missing grp i = {v} := by rw [← htf, hd]; simp
      have hc : mergedVal missing grp i = v := by unfold mergedVal; rw [hd]
      rw [hc]
      refine ⟨?_, ?_, ?_⟩
      · intro he
        rw [he] at hS
        exact absurd hS.symm (Finset.singleton_ne_empty v)
      · intro w hw
        rw [hS] at hw
        exact Finset.singleton_inj.mp hw
      · intro h1
        rw [hS] at h1
        simp at h1
    | cons w ws =>
      rw [hd] at hlen htf hnd
      have hcard : 2 ≤ (distinctFinset missing grp i).card := by
        rw [← hlen]
        simp
      have hns : normSet (v :: w :: ws) = v :: w :: ws := by
        rw [← hd]
        exact normSet_idem (presentVals missing grp i)
      have hc : mergedVal missing grp i = Conflict (v :: w :: ws) := by
        unfold mergedVal
        rw [hd]
      rw [hc]
      refine ⟨?_, ?_, ?_⟩
      · intro he
        rw [he] at hcard
        simp at hcard
      · intro u hu
        rw [hu] at hcard
        simp at hcard
      · intro _
        refine ⟨v :: w :: ws, ?_, hnd, by simp, htf⟩
        unfold Conflict
        rw [hns]

theorem fieldIndex_cons (g : String) (gs : List String) (f : String) :
    fieldIndex (g :: gs) f = if g = f then 0 else fieldIndex gs f + 1 := rfl

theorem fieldIndex_lt_length {l : List String} {f : String} (h : f ∈ l) :
    fieldIndex l f < l.length := by
  induction l with
  | nil => simp at h
  | cons g gs ih =>
    rw [fieldIndex_cons, List.length_cons]
    by_cases he : g = f
    · rw [if_pos he]
      exact Nat.succ_pos _
    · rw [if_neg he]
      have hm : f ∈ gs := by
        rcases List.mem_cons.mp h with h' | h'
        · exact absurd h'.symm he
        · exact h'
      exact Nat.succ_lt_succ (ih hm)

theorem getD_fieldIndex {l : List String} {f : String} (h : f ∈ l) (d : String) :
    l.getD (fieldIndex l f) d = f := by
  induction l with
  | nil => simp at h
  | cons g gs ih =>
    rw [fieldIndex_cons]
    by_cases he : g = f
    · rw [if_pos he]
      exact he
    · rw [if_neg he, List.getD_cons_succ]
      have hm : f ∈ gs := by
        rcases List.mem_cons.mp h with h' | h'
        · exact absurd h'.symm he
        · exact h'
      exact ih hm

theorem fieldIndex_append_left {l₁ : List String} (l₂ : List String) {f : String}
    (h : f ∈ l₁) : fieldIndex (l₁ ++ l₂) f = fieldIndex l₁ f := by
  induction l₁ with
  | nil => simp at h
  | cons g gs ih =>
    rw [List.cons_append, fieldIndex_cons, fieldIndex_cons]
    by_cases he : g = f
    · rw [if_pos he, if_pos he]
    · rw [if_neg he, if_neg he]
      have hm : f ∈ gs := by
        rcases List.mem_cons.mp h with h' | h'
        · exact absurd h'.symm he
        · exact h'
      rw [ih hm]

theorem fieldIndex_append_right {l₁ : List String} (l₂ : List String) {f : String}
    (h : f ∉ l₁) : fieldIndex (l₁ ++ l₂) f = l₁.length + fieldIndex l₂ f := by
  induction l₁ with
  | nil => simp
  | cons g gs ih =>
    rw [List.cons_append, fieldIndex_cons]
    have he : ¬ g = f := by
      intro hh
      subst hh
      exact h (List.mem_cons_self g gs)
    rw [if_neg he]
    have hm : f ∉ gs := fun hmm => h (List.mem_cons_of_mem _ hmm)
    rw [ih hm, List.length_cons]
    omega

theorem normSet_singleton (v : Val) : normSet [v] = [v] := by
  unfold normSet
  rw [show List.insertionSort vle [v] = [v] from rfl,
    List.dedup_cons_of_not_mem (by simp), List.dedup_nil]

/-- Merging a group holding a single row reproduces each cell in range:
a non-missing cell is the unique distinct value and is emitted; a
missing cell gives an empty distinct set and the sentinel is emitted. -/
theorem mergedVal_singleton {missing : Val} {r : Row} {i : Nat}
    (h : i < r.length) : mergedVal missing [r] i = cellAt r i := by
  by_cases hc : cellAt r i = missing
  · have hp : presentVals missing [r] i = [] := by
      unfold presentVals
      simp [hc]
    unfold mergedVal distinctVals
    rw [hp]
    exact hc.symm
  · have hp : presentVals missing [r] i = [cellAt r i] := by
      unfold presentVals
      simp [h, hc]
    unfold mergedVal distinctVals
    rw [hp, normSet_singleton]

theorem keyCells_keyOf_length {hdr : List String} {key : KeySpec}
    (hk : key.isField) (x : Row) :
    (keyCells key (keyOf hdr key x)).length = (keyFields key).length := by
  cases key with
  | fld f => rfl
  | flds fs => simp [keyCells, keyOf, keyFields]
  | call g => exact False.elim hk

/-- Extracting the key from an output row of `itermergeduplicates`
recovers the group key: the key fields sit in the leading positions of
the output header and row. -/
theorem keyOf_recover {hdr : List String} {key : KeySpec} (hk : key.isField)
    (tl : List String) (x : Row) (rest : List Val) :
    keyOf (keyFields key ++ tl) key (keyCells key (keyOf hdr key x) ++ rest) =
      keyOf hdr key x := by
  cases key with
  | call g => exact False.elim hk
  | fld f =>
    show cellAt ([cellAt x (fieldIndex hdr f)] ++ rest)
      (fieldIndex ([f] ++ tl) f) = _
    rw [fieldIndex_append_left tl (List.mem_singleton_self f),
      show fieldIndex [f] f = 0 from by rw [fieldIndex_cons, if_pos rfl]]
    rfl
  | flds fs =>
    show Val.tup (fs.map fun f =>
        cellAt ((fs.map fun f => cellAt x (fieldIndex hdr f)) ++ rest)
          (fieldIndex (fs ++ tl) f)) =
      Val.tup (fs.map fun f => cellAt x (fieldIndex hdr f))
    congr 1
    apply List.map_congr_left
    intro f hf
    have hlt := fieldIndex_lt_length hf
    rw [fieldIndex_append_left tl hf]
    show (List.map (fun f => cellAt x (fieldIndex hdr f)) fs ++ rest).getD
      (fieldIndex fs f) Val.none_ = _
    rw [List.getD_append _ _ _ _ (by rw [List.length_map]; exact hlt),
      List.getD_eq_getElem _ _ (by rw [List.length_map]; exact hlt),
      List.getElem_map]
    have hgf : fs.getD (fieldIndex fs f) "" = f := getD_fieldIndex hf ""
    rw [List.getD_eq_getElem fs "" hlt] at hgf
    rw [hgf]

theorem filter_keyFields_nil (key : KeySpec) :
    (keyFields key).filter (fun f => decide (f ∉ keyFields key)) = [] := by
  rw [List.filter_eq_nil_iff]
  intro a ha
  simp [ha]

/-- The non-key fields of a merged output header are the non-key fields
of the input header. -/
theorem valFields_outFields (hdr : List String) (key : KeySpec) :
    valFields (mergeOutFields hdr key) key = valFields hdr key := by
  unfold valFields mergeOutFields
  rw [List.filter_append, filter_keyFields_nil, List.nil_append]
  rw [show (valFields hdr key).filter (fun f => decide (f ∉ keyFields key)) =
      valFields hdr key from ?_]
  · rfl
  · rw [List.filter_eq_self]
    intro a ha
    exact (List.mem_filter.mp ha).2

/-- The merged output header is stable under a second merge with the same
key. -/
theorem mergeOutFields_stable (hdr : List String) (key : KeySpec) :
    mergeOutFields (mergeOutFields hdr key) key = mergeOutFields hdr key := by
  conv_lhs => rw [mergeOutFields, valFields_outFields]
  rfl

theorem mergeRow_keyOf {hdr : List String} {key : KeySpec} (hk : key.isField)
    (missing : Val) (p : Val × List Row) (x : Row) (hx : p.1 = keyOf hdr key x) :
    keyOf (mergeOutFields hdr key) key (mergeRow hdr key missing p) = p.1 := by
  unfold mergeRow mergeOutFields
  rw [hx]
  exact keyOf_recover hk _ x _

theorem mergeRow_length {hdr : List String} {key : KeySpec} (hk : key.isField)
    (missing : Val) (p : Val × List Row) (x : Row) (hx : p.1 = keyOf hdr key x) :
    (mergeRow hdr key missing p).length = (mergeOutFields hdr key).length := by
  unfold mergeRow mergeOutFields
  rw [List.length_append, List.length_append, hx, keyCells_keyOf_length hk,
    List.length_map, List.length_map]

/-- Merging the singleton group of a merged output row under the output
header reproduces the row. -/
theorem mergeRow_reproduce {hdr : List String} {key : KeySpec} (hk : key.isField)
    (missing : Val) (p : Val × List Row) (x : Row) (hx : p.1 = keyOf hdr key x) :
    mergeRow (mergeOutFields hdr key) key missing
      (keyOf (mergeOutFields hdr key) key (mergeRow hdr key missing p),
        [mergeRow hdr key missing p]) =
      mergeRow hdr key missing p := by
  have hkey := mergeRow_keyOf hk missing p x hx
  have hrlen := mergeRow_length hk missing p x hx
  conv_lhs => rw [mergeRow]
  show keyCells key (keyOf (mergeOutFields hdr key) key (mergeRow hdr key missing p)) ++
    ((valFields (mergeOutFields hdr key) key).map
      (fun f => fieldIndex (mergeOutFields hdr key) f)).map
      (fun i => mergedVal missing [mergeRow hdr key missing p] i) = _
  rw [hkey, valFields_outFields]
  conv_rhs => rw [mergeRow]
  congr 1
  rw [List.map_map, List.map_map]
  apply List.map_congr_left
  intro f hf
  have hf' : f ∉ keyFields key := by
    have hmf := (List.mem_filter.mp hf).2
    simpa using hmf
  have hj : fieldIndex (mergeOutFields hdr key) f =
      (keyFields key).length + fieldIndex (valFields hdr key) f := by
    unfold mergeOutFields
    exact fieldIndex_append_right _ hf'
  have hjlt : fieldIndex (valFields hdr key) f < (valFields hdr key).length :=
    fieldIndex_lt_length hf
  have hout : (mergeOutFields hdr key).length =
      (keyFields key).length + (valFields hdr key).length := by
    unfold mergeOutFields
    rw [List.length_append]
  show mergedVal missing [mergeRow hdr key missing p]
      (fieldIndex (mergeOutFields hdr key) f) = _
  rw [hj, mergedVal_singleton (by rw [hrlen, hout]; omega)]
  show (mergeRow hdr key missing p).getD
    ((keyFields key).length + fieldIndex (valFields hdr key) f) Val.none_ = _
  rw [mergeRow]
  have hkclen : (keyCells key p.1).length = (keyFields key).length := by
    rw [hx]
    exact keyCells_keyOf_length hk x
  rw [List.getD_append_right _ _ _ _ (by rw [hkclen]; omega)]
  rw [show (keyFields key).length + fieldIndex (valFields hdr key) f -
      (keyCells key p.1).length = fieldIndex (valFields hdr key) f from by
    rw [hkclen]; omega]
  rw [List.map_map]
  rw [List.getD_eq_getElem _ _ (by rw [List.length_map]; exact hjlt),
    List.getElem_map]
  have hgf : (valFields hdr key).getD (fieldIndex (valFields hdr key) f) "" = f :=
    getD_fieldIndex hf ""
  rw [List.getD_eq_getElem _ "" hjlt] at hgf
  rw [hgf]

/-- Merging a key-sorted table twice with the same key and missing
sentinel changes nothing the second time. -/
theorem itermerge_idem_sorted (u : Table) (key : KeySpec) (missing : Val)
    (hk : key.isField) (hs : List.Sorted (rowle u.hdr key) u.rows) :
    mergeduplicates (itermergeduplicates u key missing) key missing false =
      itermergeduplicates u key missing := by
  have hkey1 : ∀ p ∈ rowgroupby u.hdr key u.rows, ∃ x, p.1 = keyOf u.hdr key x := by
    intro p hp
    obtain ⟨hne, hmem⟩ := groupRuns_mem_key (keyOf u.hdr key) u.rows p hp
    obtain ⟨x, hx⟩ := List.exists_mem_of_ne_nil p.2 hne
    exact ⟨x, ((hmem x hx).2).symm⟩
  have hkeyrow : ∀ p ∈ rowgroupby u.hdr key u.rows,
      keyOf (mergeOutFields u.hdr key) key (mergeRow u.hdr key missing p) = p.1 := by
    intro p hp
    obtain ⟨x, hx⟩ := hkey1 p hp
    exact mergeRow_keyOf hk missing p x hx
  have hchain : List.Chain' (fun p q : Val × List Row =>
      encodeVal p.1 < encodeVal q.1) (rowgroupby u.hdr key u.rows) :=
    groupRuns_chain_lt (keyOf u.hdr key) u.rows hs
  haveI : IsTrans (Val × List Row) (fun p q => encodeVal p.1 < encodeVal q.1) :=
    ⟨fun _ _ _ h h' => Nat.lt_trans h h'⟩
  have hpwm := List.Pairwise.and_mem.mp (List.chain'_iff_pairwise.mp hchain)
  have hsorted : List.Sorted (rowle (mergeOutFields u.hdr key) key)
      ((rowgroupby u.hdr key u.rows).map (mergeRow u.hdr key missing)) := by
    apply List.pairwise_map.mpr
    refine hpwm.imp ?_
    intro a b hab
    show encodeVal _ ≤ encodeVal _
    rw [hkeyrow a hab.1, hkeyrow b hab.2.1]
    exact Nat.le_of_lt hab.2.2
  have hsorteq := sortByKey_eq_of_sorted hsorted
  have hne2 : List.Chain' (fun r s => keyOf (mergeOutFields u.hdr key) key r ≠
      keyOf (mergeOutFields u.hdr key) key s)
      ((rowgroupby u.hdr key u.rows).map (mergeRow u.hdr key missing)) := by
    apply List.Pairwise.chain'
    apply List.pairwise_map.mpr
    refine hpwm.imp ?_
    intro a b hab he
    rw [hkeyrow a hab.1, hkeyrow b hab.2.1] at he
    rw [he] at hab
    exact Nat.lt_irrefl _ hab.2.2
  have hruns := groupRuns_of_chain_ne (keyOf (mergeOutFields u.hdr key) key) _ hne2
  show itermergeduplicates
      { hdr := mergeOutFields u.hdr key,
        rows := sortByKey (mergeOutFields u.hdr key) key
          ((rowgroupby u.hdr key u.rows).map (mergeRow u.hdr key missing)) }
      key missing = itermergeduplicates u key missing
  rw [hsorteq]
  show Table.mk (mergeOutFields (mergeOutFields u.hdr key) key)
      ((groupRuns (keyOf (mergeOutFields u.hdr key) key)
        ((rowgroupby u.hdr key u.rows).map (mergeRow u.hdr key missing))).map
        (mergeRow (mergeOutFields u.hdr key) key missing)) =
    Table.mk (mergeOutFields u.hdr key)
      ((rowgroupby u.hdr key u.rows).map (mergeRow u.hdr key missing))
  rw [mergeOutFields_stable, hruns, List.map_map, List.map_map]
  congr 1
  apply List.map_congr_left
  intro p hp
  obtain ⟨x, hx⟩ := hkey1 p hp
  exact mergeRow_reproduce hk missing p x hx

/-- C2: applying `mergeduplicates` a second time to its own output with
the same key and missing sentinel is a no-op: after the first pass each
key value appears in exactly one row, so no further merging or conflicts
can occur. -/
theorem mergeduplicates_idempotent (t : Table) (key : KeySpec) (missing : Val)
    (hk : key.isField) :
    mergeduplicates (mergeduplicates t key missing false) key missing false =
      mergeduplicates t key missing false :=
  itermerge_idem_sorted
    { hdr := t.hdr, rows := sortByKey t.hdr key t.rows } key missing hk
    (sortByKey_sorted t.hdr key t.rows)

/-- Sample table of the spec's missing-value precedence example: rows
`('B', 2, None)` and `('B', None, 7.8)` (with values coded as integers)
under key `foo`. -/
def sampleMergeTable : Table :=
  ⟨["foo", "bar", "baz"],
    [[.int 2, .int 2, .none_], [.int 2, .none_, .int 78]]⟩

theorem mergeduplicates_idempotent_witness :
    KeySpec.isField (KeySpec.fld "foo") ∧
    mergeduplicates (mergeduplicates sampleMergeTable (.fld "foo") .none_ false)
        (.fld "foo") .none_ false =
      mergeduplicates sampleMergeTable (.fld "foo") .none_ false :=
  ⟨trivial,
    mergeduplicates_idempotent sampleMergeTable (.fld "foo") .none_ trivial⟩

/-- C1: each output data row of `mergeduplicates` consists of the group's
key value(s) followed by, for each non-key header field, the result of
collecting the distinct present non-missing values of the group: the
unique member if exactly one, the missing sentinel if none, and a
Conflict of all distinct members if more than one — so a missing value
never conflicts with or overrides a concrete value. -/
theorem itermergeduplicates_forall₂ (u : Table) (key : KeySpec) (missing : Val) :
    List.Forall₂
      (fun (p : Val × List Row) (r : Row) =>
        ∃ cells, r = keyCells key p.1 ++ cells ∧
          List.Forall₂
            (fun f c => MergedCellOk missing p.2 (fieldIndex u.hdr f) c)
            (valFields u.hdr key) cells)
      (rowgroupby u.hdr key u.rows)
      (itermergeduplicates u key missing).rows := by
  show List.Forall₂ _ _ ((rowgroupby u.hdr key u.rows).map _)
  rw [List.forall₂_map_right_iff, List.forall₂_same]
  intro p _
  refine ⟨_, rfl, ?_⟩
  rw [List.map_map, List.forall₂_map_right_iff, List.forall₂_same]
  intro f _
  exact mergedVal_ok missing p.2 (fieldIndex u.hdr f)

theorem mergeduplicates_output_rows (t : Table) (key : KeySpec) (missing : Val)
    (hk : key.isField) :
    List.Forall₂
      (fun (p : Val × List Row) (r : Row) =>
        ∃ cells, r = keyCells key p.1 ++ cells ∧
          List.Forall₂
            (fun f c => MergedCellOk missing p.2 (fieldIndex t.hdr f) c)
            (valFields t.hdr key) cells)
      (rowgroupby t.hdr key (sortByKey t.hdr key t.rows))
      (mergeduplicates t key missing false).rows := by
  clear hk
  exact itermergeduplicates_forall₂
    { hdr := t.hdr, rows := sortByKey t.hdr key t.rows } key missing

theorem mergeduplicates_output_rows_witness :
    KeySpec.isField (.fld "foo") ∧
    List.Forall₂
      (fun (p : Val × List Row) (r : Row) =>
        ∃ cells, r = keyCells (.fld "foo") p.1 ++ cells ∧
          List.Forall₂
            (fun f c =>
              MergedCellOk .none_ p.2 (fieldIndex sampleMergeTable.hdr f) c)
            (valFields sampleMergeTable.hdr (.fld "foo")) cells)
      (rowgroupby sampleMergeTable.hdr (.fld "foo")
        (sortByKey sampleMergeTable.hdr (.fld "foo") sampleMergeTable.rows))
      (mergeduplicates sampleMergeTable (.fld "foo") .none_ false).rows ∧
    (mergeduplicates sampleMergeTable (.fld "foo") .none_ false).rows =
      [[.int 2, .int 2, .int 78]] :=
  ⟨trivial,
    mergeduplicates_output_rows sampleMergeTable (.fld "foo") .none_ trivial,
    by decide⟩

/-- C5: Conflict equality is order-independent set equality, and the
merge engine never constructs a one-element Conflict: a single distinct
value collapses to that value itself, and a Conflict is built exactly
when more than one distinct non-missing value exists, holding all
distinct members. -/
theorem conflict_set_semantics :
    (∀ l l' : List Val, l.toFinset = l'.toFinset → Conflict l = Conflict l') ∧
    Conflict [Val.int 1, Val.int 2] = Conflict [Val.int 2, Val.int 1] ∧
    (∀ items : List Val, ∃ L, Conflict items = Val.conflict L ∧ L.Nodup ∧
      L.toFinset = items.toFinset) ∧
    (∀ missing grp i v, distinctFinset missing grp i = {v} →
      mergedVal missing grp i = v) ∧
    (∀ missing grp i, 1 < (distinctFinset missing grp i).card →
      ∃ L, mergedVal missing grp i = Val.conflict L ∧ 2 ≤ L.length ∧ L.Nodup ∧
        L.toFinset = distinctFinset missing grp i) := by
  refine ⟨?_, by decide, ?_, ?_, ?_⟩
  · intro l l' h
    unfold Conflict
    rw [normSet_canonical h]
  · intro items
    exact ⟨normSet items, rfl, nodup_normSet items, toFinset_normSet items⟩
  · intro missing grp i v hv
    exact (mergedVal_ok missing grp i).2.1 v hv
  · intro missing grp i hc
    obtain ⟨L, h1, h2, h3, h4⟩ := (mergedVal_ok missing grp i).2.2 hc
    exact ⟨L, h1, h3, h2, h4⟩

/-- On a key-sorted input, distinct groups carry distinct keys. -/
theorem groupRuns_map_fst_nodup {α : Type} (k : α → Val) (l : List α)
    (hs : List.Sorted (fun a b => encodeVal (k a) ≤ encodeVal (k b)) l) :
    ((groupRuns k l).map Prod.fst).Nodup := by
  haveI : IsTrans (Val × List α) (fun p q => encodeVal p.1 < encodeVal q.1) :=
    ⟨fun _ _ _ h h' => Nat.lt_trans h h'⟩
  have hp := List.chain'_iff_pairwise.mp (groupRuns_chain_lt k l hs)
  exact List.pairwise_map.mpr
    (hp.imp (fun h he => by rw [he] at h; exact Nat.lt_irrefl _ h))

/-- The emitted group keys are exactly the keys present in the input. -/
theorem groupRuns_map_fst_toFinset {α κ : Type} [DecidableEq κ] (k : α → κ)
    (l : List α) :
    ((groupRuns k l).map Prod.fst).toFinset = (l.map k).toFinset := by
  apply Finset.ext
  intro x
  simp only [List.mem_toFinset, List.mem_map]
  constructor
  · rintro ⟨p, hp, rfl⟩
    obtain ⟨hne, hmem⟩ := groupRuns_mem_key k l p hp
    obtain ⟨y, hy⟩ := List.exists_mem_of_ne_nil p.2 hne
    exact ⟨y, (hmem y hy).1, (hmem y hy).2⟩
  · rintro ⟨y, hy, rfl⟩
    obtain ⟨p, hp, hyp⟩ := mem_groupRuns_of_mem k l y hy
    exact ⟨p, hp, ((groupRuns_mem_key k l p hp).2 y hyp).2.symm⟩

/-- Source `iterrowreduce`: the output header is the caller-supplied
field list or, when omitted, the field names peeked from the source; one
output row per group, each produced by the reducer on the group's key
and rows. -/
def iterrowreduce (t : Table) (key : KeySpec)
    (reducer : Val → List Row → Row) (fields : Option (List String)) : Table :=
  { hdr := fields.getD t.hdr,
    rows := (rowgroupby t.hdr key t.rows).map (fun p => reducer p.1 p.2) }

/-- Source `rowreduce` / `RowReduceView`: route the source through the
sort step unless presorted, then reduce each group to a single row. -/
def rowreduce (t : Table) (key : KeySpec) (reducer : Val → List Row → Row)
    (fields : Option (List String)) (presorted : Bool) : Table :=
  iterrowreduce
    (if presorted then t else { hdr := t.hdr, rows := sortByKey t.hdr key t.rows })
    key reducer fields

/-- C3: `rowreduce` yields the caller-supplied header (or the source's
field names when omitted) and exactly one data row per distinct key value
present in the table, one per group, regardless of the order of the
input rows. -/
theorem rowreduce_one_row_per_key (t : Table) (key : KeySpec)
    (reducer : Val → List Row → Row) (fields : Option (List String)) :
    (rowreduce t key reducer fields false).hdr = fields.getD t.hdr ∧
    (rowreduce t key reducer fields false).rows =
      (rowgroupby t.hdr key (sortByKey t.hdr key t.rows)).map
        (fun p => reducer p.1 p.2) ∧
    ((rowgroupby t.hdr key (sortByKey t.hdr key t.rows)).map Prod.fst).Nodup ∧
    ((rowgroupby t.hdr key (sortByKey t.hdr key t.rows)).map Prod.fst).toFinset =
      (t.rows.map (keyOf t.hdr key)).toFinset ∧
    (rowreduce t key reducer fields false).rows.length =
      ((t.rows.map (keyOf t.hdr key)).toFinset).card ∧
    ∀ t' : Table, t'.hdr = t.hdr → List.Perm t'.rows t.rows →
      (rowreduce t' key reducer fields false).rows.length =
        (rowreduce t key reducer fields false).rows.length := by
  have hnodup : ∀ u : Table,
      ((rowgroupby u.hdr key (sortByKey u.hdr key u.rows)).map Prod.fst).Nodup := by
    intro u
    exact groupRuns_map_fst_nodup (keyOf u.hdr key) _ (sortByKey_sorted u.hdr key u.rows)
  have htf : ∀ u : Table,
      ((rowgroupby u.hdr key (sortByKey u.hdr key u.rows)).map Prod.fst).toFinset =
        (u.rows.map (keyOf u.hdr key)).toFinset := by
    intro u
    unfold rowgroupby
    rw [groupRuns_map_fst_toFinset]
    exact List.toFinset_eq_of_perm _ _
      ((sortByKey_perm u.hdr key u.rows).map (keyOf u.hdr key))
  have hcount : ∀ u : Table,
      (rowreduce u key reducer fields false).rows.length =
        ((u.rows.map (keyOf u.hdr key)).toFinset).card := by
    intro u
    show ((rowgroupby u.hdr key (sortByKey u.hdr key u.rows)).map
      (fun p => reducer p.1 p.2)).length = _
    rw [List.length_map, ← htf u,
      List.toFinset_card_of_nodup (hnodup u), List.length_map]
  refine ⟨rfl, rfl, hnodup t, htf t, hcount t, ?_⟩
  intro t' hh hp
  rw [hcount t', hcount t, hh]
  rw [List.toFinset_eq_of_perm _ _ (hp.map (keyOf t.hdr key))]

/-- Sample reducer: key plus group size. -/
def sampleReducer : Val → List Row → Row :=
  fun k rows => [k, .int (Int.ofNat rows.length)]

def tableA : Table :=
  ⟨["foo", "bar"], [[.int 1, .int 3], [.int 2, .int 4], [.int 1, .int 7]]⟩

def tableB : Table :=
  ⟨["foo", "bar"], [[.int 1, .int 7], [.int 1, .int 3], [.int 2, .int 4]]⟩

theorem rowreduce_one_row_per_key_witness :
    tableB.hdr = tableA.hdr ∧ List.Perm tableB.rows tableA.rows ∧
    (rowreduce tableB (.fld "foo") sampleReducer Option.none false).rows.length =
      (rowreduce tableA (.fld "foo") sampleReducer Option.none false).rows.length ∧
    (rowreduce tableA (.fld "foo") sampleReducer Option.none false).hdr =
      ["foo", "bar"] ∧
    (rowreduce tableA (.fld "foo") sampleReducer Option.none false).rows.length =
      ((tableA.rows.map (keyOf tableA.hdr (.fld "foo"))).toFinset).card ∧
    (rowreduce tableA (.fld "foo") sampleReducer Option.none false).rows.length = 2 :=
  ⟨rfl, by decide,
    (rowreduce_one_row_per_key tableA (.fld "foo") sampleReducer
      Option.none).2.2.2.2.2 tableB rfl (by decide),
    (rowreduce_one_row_per_key tableA (.fld "foo") sampleReducer Option.none).1,
    (rowreduce_one_row_per_key tableA (.fld "foo") sampleReducer
      Option.none).2.2.2.2.1,
    by decide⟩

/-- Value-field specification: a single field name or a tuple of field
names. -/
inductive ValueSpec where
  | fld (f : String)
  | flds (fs : List String)

/-- Modelled from the spec: the Row-Group Iterator's optional value-field
projection — groups expose "either full rows or extracted value-tuples".
A whole row is exposed as a tuple value. -/
def projectVal (hdr : List String) (value : Option ValueSpec) (row : Row) : Val :=
  match value with
  | Option.none => .tup row
  | some (.fld f) => cellAt row (fieldIndex hdr f)
  | some (.flds fs) => .tup (fs.map (fun f => cellAt row (fieldIndex hdr f)))

/-- Modelled from the spec: row grouping with value projection, as used by
`itersimpleaggregate` and `iterfold`. -/
def rowgroupbyv (hdr : List String) (key : KeySpec) (value : Option ValueSpec)
    (rows : List Row) : List (Val × List Val) :=
  (groupRuns (keyOf hdr key) rows).map
    (fun p => (p.1, p.2.map (projectVal hdr value)))

/-- Python `reduce` with no initializer: left fold of the tail over the
head.  Groups are never empty, so the empty case (a TypeError in Python)
never arises; it is mapped to the null marker. -/
def reduce1 (f : Val → Val → Val) : List Val → Val
  | [] => Val.none_
  | x :: xs => xs.foldl f x

/-- Source `iterfold`: fixed header `('key', 'value')`; one row per group
holding the key and the recursive reduction of the group's values. -/
def iterfold (t : Table) (key : KeySpec) (f : Val → Val → Val)
    (value : Option ValueSpec) : Table :=
  { hdr := ["key", "value"],
    rows := (rowgroupbyv t.hdr key value t.rows).map
      (fun p => [p.1, reduce1 f p.2]) }

/-- Source `fold` / `FoldView`: route the table through the sort step
unless presorted, then fold each group. -/
def fold (t : Table) (key : KeySpec) (f : Val → Val → Val)
    (value : Option ValueSpec) (presorted : Bool) : Table :=
  iterfold
    (if presorted then t else { hdr := t.hdr, rows := sortByKey t.hdr key t.rows })
    key f value

/-- Integer addition on cells, the model of `operator.add`. -/
def addVal : Val → Val → Val
  | .int a, .int b => .int (a + b)
  | _, _ => .none_

/-- C4: `fold` yields the fixed header `('key', 'value')` followed by,
for each group, the key paired with a strict left-to-right reduction of
the group's extracted values with no initial value; a one-element group
yields that element unchanged; and the spec's worked example over
presorted rows `[(1,3),(1,5),(2,4),(2,8)]` with integer addition over
`count` yields `[('key','value'),(1,8),(2,12)]`. -/
theorem fold_left_reduction :
    (∀ (t : Table) (key : KeySpec) (f : Val → Val → Val)
        (value : Option ValueSpec) (presorted : Bool),
      (fold t key f value presorted).hdr = ["key", "value"]) ∧
    (∀ (u : Table) (key : KeySpec) (f : Val → Val → Val)
        (value : Option ValueSpec),
      List.Forall₂
        (fun (p : Val × List Val) (r : Row) =>
          ∃ x xs, p.2 = x :: xs ∧ r = [p.1, xs.foldl f x])
        (rowgroupbyv u.hdr key value u.rows)
        (iterfold u key f value).rows) ∧
    (∀ (t : Table) (key : KeySpec) (f : Val → Val → Val)
        (value : Option ValueSpec),
      fold t key f value false =
        iterfold { hdr := t.hdr, rows := sortByKey t.hdr key t.rows } key f value ∧
      fold t key f value true = iterfold t key f value) ∧
    (∀ (f : Val → Val → Val) (x : Val), reduce1 f [x] = x) ∧
    fold ⟨["id", "count"], [[.int 1, .int 3], [.int 1, .int 5],
        [.int 2, .int 4], [.int 2, .int 8]]⟩
      (.fld "id") addVal (some (.fld "count")) true =
      ⟨["key", "value"], [[.int 1, .int 8], [.int 2, .int 12]]⟩ := by
  refine ⟨fun _ _ _ _ _ => rfl, ?_, fun _ _ _ _ => ⟨rfl, rfl⟩, fun _ _ => rfl,
    by decide⟩
  intro u key f value
  show List.Forall₂ _ _ ((rowgroupbyv u.hdr key value u.rows).map _)
  rw [List.forall₂_map_right_iff, List.forall₂_same]
  intro p hp
  unfold rowgroupbyv at hp
  obtain ⟨q, hq, hqp⟩ := List.mem_map.mp hp
  obtain ⟨hne, -⟩ := groupRuns_mem_key (keyOf u.hdr key) u.rows q hq
  cases hg : q.2 with
  | nil => exact absurd hg hne
  | cons x xs =>
    refine ⟨projectVal u.hdr value x, xs.map (projectVal u.hdr value), ?_, ?_⟩
    · rw [← hqp]
      show (q.2.map (projectVal u.hdr value)) = _
      rw [hg, List.map_cons]
    · show [p.1, reduce1 f p.2] = _
      rw [← hqp]
      show [q.1, reduce1 f (q.2.map (projectVal u.hdr value))] = _
      rw [hg, List.map_cons]
      rfl

/-- A length-counting pass over a group: `sum(1 for _ in g)` (source
`itersimpleaggregate`, the `len` special case). -/
def countPass (g : List Val) : Nat := g.foldl (fun n _ => n + 1) 0

/-- The simple aggregation argument: either the Python builtin `len`
(recognized by identity in the source through `aggregation == len`) or
another callable applied to the group. -/
inductive SimpleAgg where
  | pyLen
  | fn (f : List Val → Val)

/-- The aggregation function actually applied per group: the `len`
special case counts by summing a pass over the group instead of
materializing it. -/
def simpleAggFn : SimpleAgg → (List Val → Val)
  | .pyLen => fun g => .int (Int.ofNat (countPass g))
  | .fn f => f

/-- Output header of `itersimpleaggregate`: key columns plus a trailing
`value` column for a compound key, `('key', 'value')` for a callable key,
`(<field name>, 'value')` for a single field name. -/
def simpleOutHdr : KeySpec → List String
  | .flds fs => fs ++ ["value"]
  | .call _ => ["key", "value"]
  | .fld f => [f, "value"]

/-- Source `itersimpleaggregate`: one output row per group, key
column(s) followed by the aggregation function applied to the group's
projected values (or whole rows when no value field is given). -/
def itersimpleaggregate (t : Table) (key : KeySpec) (agg : SimpleAgg)
    (value : Option ValueSpec) : Table :=
  { hdr := simpleOutHdr key,
    rows := (rowgroupbyv t.hdr key value t.rows).map (fun p =>
      match key with
      | .flds _ => keyCells key p.1 ++ [simpleAggFn agg p.2]
      | _ => [p.1, simpleAggFn agg p.2]) }

/-- Source `aggregate` with a callable aggregation argument
(`SimpleAggregateView`): sort unless presorted, then aggregate. -/
def simpleAggregate (t : Table) (key : KeySpec) (agg : SimpleAgg)
    (value : Option ValueSpec) (presorted : Bool) : Table :=
  itersimpleaggregate
    (if presorted then t else { hdr := t.hdr, rows := sortByKey t.hdr key t.rows })
    key agg value

/-- C7: the output header of the simple aggregate view depends only on
the key specification: key fields plus `value` for a compound key,
`('key', 'value')` for a callable key, `(<field>, 'value')` for a single
field name. -/
theorem simpleaggregate_header :
    (∀ (t : Table) (agg : SimpleAgg) (value : Option ValueSpec)
        (presorted : Bool) (fs : List String),
      (simpleAggregate t (.flds fs) agg value presorted).hdr = fs ++ ["value"]) ∧
    (∀ (t : Table) (agg : SimpleAgg) (value : Option ValueSpec)
        (presorted : Bool) (g : Row → Val),
      (simpleAggregate t (.call g) agg value presorted).hdr = ["key", "value"]) ∧
    (∀ (t : Table) (agg : SimpleAgg) (value : Option ValueSpec)
        (presorted : Bool) (f : String),
      (simpleAggregate t (.fld f) agg value presorted).hdr = [f, "value"]) ∧
    (∀ (t t' : Table) (agg agg' : SimpleAgg) (value value' : Option ValueSpec)
        (presorted presorted' : Bool) (key : KeySpec),
      (simpleAggregate t key agg value presorted).hdr =
        (simpleAggregate t' key agg' value' presorted').hdr) :=
  ⟨fun _ _ _ _ _ => rfl, fun _ _ _ _ _ => rfl, fun _ _ _ _ _ => rfl,
    fun _ _ _ _ _ _ _ _ _ => rfl⟩

theorem countPass_go (g : List Val) : ∀ n, g.foldl (fun n _ => n + 1) n = n + g.length := by
  induction g with
  | nil => intro n; simp
  | cons x xs ih =>
    intro n
    rw [List.foldl_cons, ih (n + 1), List.length_cons]
    omega

theorem countPass_eq_length (g : List Val) : countPass g = g.length := by
  unfold countPass
  rw [countPass_go g 0]
  omega

/-- Modelled from the spec, for comparison: the naive length-counting
aggregation that materializes each group into a collected list and
returns what `len` would return on it. -/
def specLenAggregate (t : Table) (key : KeySpec) (value : Option ValueSpec)
    (presorted : Bool) : Table :=
  simpleAggregate t key (.fn (fun g => .int (Int.ofNat g.length))) value presorted

/-- C8: the `len` special case of the simple aggregate view — a counting
pass over the group — produces for every group exactly the value `len`
would return on the materialized group, so the whole view refines the
materializing variant. -/
theorem simpleaggregate_len_refinement :
    (∀ g : List Val, countPass g = g.length) ∧
    (∀ (t : Table) (key : KeySpec) (value : Option ValueSpec) (presorted : Bool),
      simpleAggregate t key .pyLen value presorted =
        specLenAggregate t key value presorted) := by
  refine ⟨countPass_eq_length, ?_⟩
  intro t key value presorted
  unfold specLenAggregate simpleAggregate itersimpleaggregate
  have hfn : simpleAggFn .pyLen =
      simpleAggFn (.fn (fun g => .int (Int.ofNat g.length))) := by
    funext g
    show Val.int (Int.ofNat (countPass g)) = Val.int (Int.ofNat g.length)
    rw [countPass_eq_length]
  rw [hfn]

/-- A component of an aggregation descriptor tuple: `None`, a source
field name, a tuple of source field names, or a callable. -/
inductive AggItem where
  | none_
  | fld (s : String)
  | flds (ss : List String)
  | fn (f : List Val → Val)

/-- An aggregation descriptor as accepted by the multi-aggregate view: a
bare callable, a bare field name, or a list/tuple of components. -/
inductive AggDesc where
  | fn (f : List Val → Val)
  | fld (s : String)
  | seq (xs : List AggItem)

/-- The Python builtin `list`, the default aggregation function: collect
the group's values. -/
def pyList : List Val → Val := fun g => .tup g

/-- Source `itermultiaggregate`, normalisation loop: map every descriptor
to a canonical `(source, function)` pair, or fail on any other shape. -/
def normaliseAgg : AggDesc → Except String (AggItem × AggItem)
  | .fn f => .ok (.none_, .fn f)
  | .fld s => .ok (.fld s, .fn pyList)
  | .seq [x] =>
    match x with
    | .fld s => .ok (.fld s, .fn pyList)
    | .fn f => .ok (.none_, .fn f)
    | _ => .error "invalid aggregation"
  | .seq [a, b] => .ok (a, b)
  | .seq _ => .error "invalid aggregation"

/-- Fail-fast effectful map, the model of a Python loop that can raise:
elements are processed left to right and the first error aborts. -/
def mapE {α β : Type} (f : α → Except String β) : List α → Except String (List β)
  | [] => .ok []
  | x :: xs => do
    let y ← f x
    let ys ← mapE f xs
    pure (y :: ys)

theorem mapE_error {α β : Type} (f : α → Except String β) :
    ∀ (xs : List α) (x : α), x ∈ xs → (∃ e, f x = .error e) →
      ∃ e, mapE f xs = .error e := by
  intro xs
  induction xs with
  | nil => intro x hx; simp at hx
  | cons y ys ih =>
    intro x hx he
    rcases List.mem_cons.mp hx with hx | hx
    · subst hx
      obtain ⟨e, hfe⟩ := he
      exact ⟨e, by simp only [mapE, hfe]; rfl⟩
    · cases hfy : f y with
      | error e => exact ⟨e, by simp only [mapE, hfy]; rfl⟩
      | ok v =>
        obtain ⟨e, hrec⟩ := ih x hx he
        exact ⟨e, by simp only [mapE, hfy, hrec]; rfl⟩

/-- Field-index resolution as Python `hdr.index(f)`: the first index, or
a ValueError when the field is absent. -/
def resolveIdx (hdr : List String) (s : String) : Except String Nat :=
  if s ∈ hdr then .ok (fieldIndex hdr s) else .error "field not found"

/-- Application of a normalised `(source, function)` pair to a group
(source `itermultiaggregate`, per-field block of the group loop): a
`None` source applies the callable to the whole rows; a field source
projects that column; a field-tuple source projects value tuples (or a
single column for a one-element tuple, as `operator.itemgetter`); a
non-callable function slot or an unresolvable field is an error. -/
def applyAgg (hdr : List String) (rows : List Row) (q : AggItem × AggItem) :
    Except String Val :=
  match q.2 with
  | .fn f =>
    match q.1 with
    | .none_ => .ok (f (rows.map Val.tup))
    | .fld s => do
      let i ← resolveIdx hdr s
      pure (f (rows.map (fun r => cellAt r i)))
    | .flds ss => do
      let idxs ← mapE (resolveIdx hdr) ss
      match idxs with
      | [] => .error "itemgetter expected 1 argument, got 0"
      | [i] => pure (f (rows.map (fun r => cellAt r i)))
      | _ => pure (f (rows.map (fun r => Val.tup (idxs.map (fun i => cellAt r i)))))
    | .fn _ => .error "field not found"
  | _ => .error "object is not callable"

/-- Output key column names of the multi-aggregate view. -/
def keyHdrNames : KeySpec → List String
  | .flds fs => fs
  | .call _ => ["key"]
  | .fld f => [f]

/-- Normalisation of one named aggregation entry. -/
def normEntry (p : String × AggDesc) :
    Except String (String × (AggItem × AggItem)) := do
  let n ← normaliseAgg p.2
  pure (p.1, n)

/-- Source `itermultiaggregate`: normalise all descriptors (before any
group is processed), then emit the key column(s) followed by one column
per aggregation, in declaration order. -/
def itermultiaggregate (t : Table) (key : KeySpec)
    (aggs : List (String × AggDesc)) : Except String Table := do
  let normed ← mapE normEntry aggs
  let rows ← mapE (fun (p : Val × List Row) => do
    let cells ← mapE (fun (q : String × (AggItem × AggItem)) =>
      applyAgg t.hdr p.2 q.2) normed
    pure (keyCells key p.1 ++ cells)) (rowgroupby t.hdr key t.rows)
  pure { hdr := keyHdrNames key ++ normed.map Prod.fst, rows := rows }

/-- C6: every aggregation descriptor is normalised to a canonical
`(source, function)` pair before any group is processed: a bare callable
becomes `(None, callable)`; a bare field name or a one-element sequence
holding a field name becomes `(field, list-collect)`; a one-element
sequence holding a callable becomes `(None, callable)`; a two-element
sequence is taken as-is; any other shape raises, and one invalid
descriptor makes the whole iteration fail whatever the data rows are. -/
theorem multiaggregate_normalisation :
    (∀ f, normaliseAgg (.fn f) = .ok (.none_, .fn f)) ∧
    (∀ s, normaliseAgg (.fld s) = .ok (.fld s, .fn pyList)) ∧
    (∀ s, normaliseAgg (.seq [.fld s]) = .ok (.fld s, .fn pyList)) ∧
    (∀ f, normaliseAgg (.seq [.fn f]) = .ok (.none_, .fn f)) ∧
    (∀ a b, normaliseAgg (.seq [a, b]) = .ok (a, b)) ∧
    (∀ x : AggItem, (∀ s, x ≠ .fld s) → (∀ f, x ≠ .fn f) →
      normaliseAgg (.seq [x]) = .error "invalid aggregation") ∧
    (∀ xs : List AggItem, xs.length ≠ 1 → xs.length ≠ 2 →
      normaliseAgg (.seq xs) = .error "invalid aggregation") ∧
    (∀ (t : Table) (key : KeySpec) (aggs : List (String × AggDesc))
        (n : String) (d : AggDesc),
      (n, d) ∈ aggs → (∃ e, normaliseAgg d = .error e) →
      ∃ e, itermultiaggregate t key aggs = .error e) := by
  refine ⟨fun _ => rfl, fun _ => rfl, fun _ => rfl, fun _ => rfl, fun _ _ => rfl,
    ?_, ?_, ?_⟩
  · intro x hfld hfn
    cases x with
    | none_ => rfl
    | fld s => exact absurd rfl (hfld s)
    | flds ss => rfl
    | fn f => exact absurd rfl (hfn f)
  · intro xs h1 h2
    match xs with
    | [] => rfl
    | [x] => exact absurd rfl h1
    | [a, b] => exact absurd rfl h2
    | a :: b :: c :: rest => rfl
  · intro t key aggs n d hmem he
    obtain ⟨e, hmape⟩ := mapE_error normEntry aggs (n, d) hmem
      (by
        obtain ⟨e, hne⟩ := he
        exact ⟨e, by simp only [normEntry, hne]; rfl⟩)
    exact ⟨e, by simp only [itermultiaggregate, hmape]; rfl⟩

theorem multiaggregate_normalisation_witness :
    ((∀ s, AggItem.none_ ≠ AggItem.fld s) ∧
      (∀ f, AggItem.none_ ≠ AggItem.fn f) ∧
      normaliseAgg (.seq [.none_]) = .error "invalid aggregation") ∧
    (([] : List AggItem).length ≠ 1 ∧ ([] : List AggItem).length ≠ 2 ∧
      normaliseAgg (.seq []) = .error "invalid aggregation") ∧
    (("n", AggDesc.seq []) ∈ [("n", AggDesc.seq [])] ∧
      (∃ e, normaliseAgg (.seq []) = .error e) ∧
      ∃ e, itermultiaggregate tableA (.fld "foo") [("n", AggDesc.seq [])] =
        .error e) :=
  ⟨⟨fun s => by intro h; exact AggItem.noConfusion h,
    fun f => by intro h; exact AggItem.noConfusion h,
    multiaggregate_normalisation.2.2.2.2.2.1 .none_
      (fun s h => AggItem.noConfusion h) (fun f h => AggItem.noConfusion h)⟩,
   ⟨by decide, by decide,
    multiaggregate_normalisation.2.2.2.2.2.2.1 [] (by decide) (by decide)⟩,
   ⟨List.mem_singleton_self _, ⟨"invalid aggregation", rfl⟩,
    multiaggregate_normalisation.2.2.2.2.2.2.2 tableA (.fld "foo")
      [("n", AggDesc.seq [])] "n" (.seq [])
      (List.mem_singleton_self _) ⟨"invalid aggregation", rfl⟩⟩⟩

/-- The aggregation argument of `aggregate`: a callable, `None`, a
list/tuple of `(name, descriptor components...)` entries, a dict of
named descriptors, or any other value. -/
inductive AggArg where
  | fn (f : SimpleAgg)
  | none_
  | list (xs : List (String × List AggItem))
  | dict (xs : List (String × AggDesc))
  | other (v : Val)

/-- A constructed aggregation view: the simple view (callable argument,
keeping the value argument) or the multi view (which has no value
argument at all). -/
inductive AggView where
  | simple (t : Table) (key : KeySpec) (agg : SimpleAgg) (value : Option ValueSpec)
  | multi (t : Table) (key : KeySpec) (aggs : List (String × AggDesc))

/-- Source `aggregate`: dispatch on the aggregation argument — callable
to the simple view; `None`, list, tuple or dict to the multi view (the
value argument is dropped there); anything else raises immediately.  A
list entry `t` is stored as `aggregation[t[0]] = t[1:]`. -/
def aggregate (t : Table) (key : KeySpec) (agg : AggArg)
    (value : Option ValueSpec) (presorted : Bool) : Except String AggView :=
  let src : Table :=
    if presorted then t else { hdr := t.hdr, rows := sortByKey t.hdr key t.rows }
  match agg with
  | .fn f => .ok (.simple src key f value)
  | .none_ => .ok (.multi src key [])
  | .list xs => .ok (.multi src key (xs.map (fun p => (p.1, .seq p.2))))
  | .dict xs => .ok (.multi src key xs)
  | .other _ => .error "expected aggregation is callable, list, tuple, dict or None"

/-- Iterating a constructed aggregation view. -/
def runAggView : AggView → Except String Table
  | .simple t key f value => .ok (itersimpleaggregate t key f value)
  | .multi t key aggs => itermultiaggregate t key aggs

/-- C9: an aggregation argument that is neither callable nor None, list,
tuple or dict makes `aggregate` raise at view construction; no view is
ever produced from it. -/
theorem aggregate_invalid_argument :
    ∀ (t : Table) (key : KeySpec) (v : Val) (value : Option ValueSpec)
      (presorted : Bool),
      aggregate t key (.other v) value presorted =
        .error "expected aggregation is callable, list, tuple, dict or None" :=
  fun _ _ _ _ _ => rfl

/-- Aggregation arguments routed to the multi-aggregate view. -/
def AggArg.isMultiPath : AggArg → Prop
  | .none_ => True
  | .list _ => True
  | .dict _ => True
  | _ => False

/-- C10: on the multi-aggregate path (aggregation argument None, list,
tuple or dict) the value argument is ignored: any two value arguments
give the same view and the same row sequence. -/
theorem aggregate_multi_ignores_value (t : Table) (key : KeySpec) (agg : AggArg)
    (v₁ v₂ : Option ValueSpec) (presorted : Bool) (h : agg.isMultiPath) :
    aggregate t key agg v₁ presorted = aggregate t key agg v₂ presorted ∧
    (aggregate t key agg v₁ presorted).bind runAggView =
      (aggregate t key agg v₂ presorted).bind runAggView := by
  cases agg with
  | none_ => exact ⟨rfl, rfl⟩
  | list xs => exact ⟨rfl, rfl⟩
  | dict xs => exact ⟨rfl, rfl⟩
  | fn f => exact False.elim h
  | other v => exact False.elim h

theorem aggregate_multi_ignores_value_witness :
    AggArg.isMultiPath (.dict [("n", .fld "bar")]) ∧
    aggregate tableA (.fld "foo") (.dict [("n", .fld "bar")])
        Option.none true =
      aggregate tableA (.fld "foo") (.dict [("n", .fld "bar")])
        (some (.fld "bar")) true ∧
    (aggregate tableA (.fld "foo") (.dict [("n", .fld "bar")])
        Option.none true).bind runAggView =
      (aggregate tableA (.fld "foo") (.dict [("n", .fld "bar")])
        (some (.fld "bar")) true).bind runAggView :=
  ⟨trivial,
    (aggregate_multi_ignores_value tableA (.fld "foo")
      (.dict [("n", .fld "bar")]) Option.none (some (.fld "bar")) true
      trivial).1,
    (aggregate_multi_ignores_value tableA (.fld "foo")
      (.dict [("n", .fld "bar")]) Option.none (some (.fld "bar")) true
      trivial).2⟩

theorem conflict_set_semantics_witness :
    distinctFinset .none_ [[.int 7]] 0 = {Val.int 7} ∧
    mergedVal .none_ [[.int 7]] 0 = .int 7 ∧
    1 < (distinctFinset .none_ [[.int 1], [.int 2]] 0).card ∧
    (∃ L, mergedVal .none_ [[.int 1], [.int 2]] 0 = Val.conflict L ∧
      2 ≤ L.length ∧ L.Nodup ∧
      L.toFinset = distinctFinset .none_ [[.int 1], [.int 2]] 0) ∧
    ([Val.int 1, Val.int 3].toFinset = [Val.int 3, Val.int 1].toFinset ∧
      Conflict [Val.int 1, Val.int 3] = Conflict [Val.int 3, Val.int 1]) :=
  ⟨by decide,
    conflict_set_semantics.2.2.2.1 .none_ [[.int 7]] 0 (.int 7) (by decide),
    by decide,
    conflict_set_semantics.2.2.2.2 .none_ [[.int 1], [.int 2]] 0 (by decide),
    by decide,
    conflict_set_semantics.1 [Val.int 1, Val.int 3] [Val.int 3, Val.int 1]
      (by decide)⟩

end Petl
